import Mathlib

/-!
Verification development for the sequence-length-aware audio pipeline of
`chainer_/chainercv2/models/jasper.py`: the CTC greedy decoder (`CtcDecoder`),
the masked 1-D convolution (`MaskConv1d`), the dense-residual unit
(`JasperUnit`), and the mel-spectrogram front end (`NemoMelSpecExtractor`).
Tensors are embedded as lists of integers (one channel along the time axis),
lengths as integers / naturals, and fallible code as `Except` / `Option`.
-/

namespace Jasper

/-! ### CTC greedy decoder (`CtcDecoder` in jasper.py) -/

/-- The collapse loop body of `CtcDecoder.__call__` (jasper.py lines 245-250):
`previous` starts at the blank id; a frame `p` is emitted when
`(p != previous or previous == blank_id) and p != blank_id`, and `previous`
becomes `p` in every iteration. -/
def ctcCollapseAux (blank : Int) : Int → List Int → List Int
  | _, [] => []
  | previous, p :: ps =>
    if (p ≠ previous ∨ previous = blank) ∧ p ≠ blank then
      p :: ctcCollapseAux blank p ps
    else
      ctcCollapseAux blank p ps

/-- The collapse of one prediction sequence, starting with `previous = blank`. -/
def ctcCollapse (blank : Int) (prediction : List Int) : List Int :=
  ctcCollapseAux blank blank prediction

/-- The decoder's `labels_map`: a finite map from class ids `0 .. len(vocabulary)-1`
to characters; any other key has no entry (`labels_map[c]` raises `KeyError`). -/
def labelsMap (vocabulary : List Char) (c : Int) : Option Char :=
  if 0 ≤ c then vocabulary[c.toNat]? else none

/-- Decoding of one prediction: collapse with `blank_id = len(vocabulary)`, then
map every emitted id through `labels_map` and join into a string; a lookup
failure (out-of-vocabulary id) makes the whole call fail. -/
def ctcDecodeOne (vocabulary : List Char) (prediction : List Int) : Option String :=
  ((ctcCollapse (vocabulary.length : Int) prediction).mapM (labelsMap vocabulary)).map
    fun cs => String.mk cs

/-- `CtcDecoder.__call__`: decode every prediction of the batch. -/
def ctcDecoder (vocabulary : List Char) (predictions : List (List Int)) :
    Option (List String) :=
  predictions.mapM (ctcDecodeOne vocabulary)

/-- The collapse rule exactly as the specification words it: a left fold carrying
`(previous, emitted)` that appends `p` iff `p != blank` and
(`p != previous` or `previous == blank`), and always updates `previous`. -/
def ctcClaimStep (blank : Int) (st : Int × List Int) (p : Int) : Int × List Int :=
  (p, if p ≠ blank ∧ (p ≠ st.1 ∨ st.1 = blank) then st.2 ++ [p] else st.2)

/-- The specification's collapse: fold `ctcClaimStep` from `previous = blank`. -/
def ctcClaimCollapse (blank : Int) (frames : List Int) : List Int :=
  (frames.foldl (ctcClaimStep blank) (blank, [])).2

theorem ctcClaimCollapse_aux (blank : Int) (ps : List Int) :
    ∀ (prev : Int) (acc : List Int),
      (ps.foldl (ctcClaimStep blank) (prev, acc)).2
        = acc ++ ctcCollapseAux blank prev ps := by
  induction ps with
  | nil => intro prev acc; simp [ctcCollapseAux]
  | cons p ps ih =>
    intro prev acc
    by_cases h : (p ≠ prev ∨ prev = blank) ∧ p ≠ blank
    · have h' : p ≠ blank ∧ (p ≠ prev ∨ prev = blank) := ⟨h.2, h.1⟩
      simp only [List.foldl_cons, ctcClaimStep, ctcCollapseAux, if_pos h, if_pos h', ih]
      simp
    · have h' : ¬(p ≠ blank ∧ (p ≠ prev ∨ prev = blank)) := fun hc => h ⟨hc.2, hc.1⟩
      simp only [List.foldl_cons, ctcClaimStep, ctcCollapseAux, if_neg h, if_neg h', ih]

/-! ### Masked 1-D convolution (`MaskConv1d` in jasper.py) -/

/-- The masking step of `MaskConv1d.__call__` (line 341-343) on one batch item and
channel: the mask keeps position `t` when `t < x_len` and zeroes it otherwise. -/
def maskSeq (xLen : Int) (x : List Int) : List Int :=
  x.mapIdx fun t v => if (t : Int) < xLen then v else 0

/-- The masking step over a batch: each item row is masked by its own valid length. -/
def maskBatch (xs : List (List Int)) (xLens : List Int) : List (List Int) :=
  (xs.zip xLens).map fun p => maskSeq p.2 p.1

/-- The new valid length computed by `MaskConv1d.__call__` (line 344):
`(x_len + 2*pad - dilate*(ksize-1) - 1) // stride + 1`, with Python floor
division embedded as `Int.fdiv`. -/
def maskConvNewLen (ksize stride pad dilate : Nat) (xLen : Int) : Int :=
  Int.fdiv (xLen + 2 * (pad : Int) - (dilate : Int) * ((ksize : Int) - 1) - 1)
    (stride : Int) + 1

/-- Value of a list at an integer position, zero outside the bounds; this models
the zero padding around the convolution input. -/
def atPos (x : List Int) (j : Int) : Int :=
  if 0 ≤ j then x.getD j.toNat 0 else 0

/-- Modelled from the spec: the strided/dilated 1-D convolution primitive
(`chainer.functions.convolution_1d`) is an external collaborator (spec section 6);
on a single channel, output position `t` reads input positions
`t*stride - pad + dilate*i` for `i < ksize`. -/
def conv1dAt (w x : List Int) (stride pad dilate : Nat) (t : Nat) : Int :=
  ((List.range w.length).map fun i =>
    w.getD i 0 * atPos x ((t : Int) * stride - pad + dilate * i)).sum

/-- Modelled from the spec: the external convolution's output covers the positions
given by the reference output-length formula (spec section 4.2). -/
def conv1d (w x : List Int) (stride pad dilate : Nat) : List Int :=
  (List.range (maskConvNewLen w.length stride pad dilate x.length).toNat).map
    (conv1dAt w x stride pad dilate)

/-- Immutable parameters of a `MaskConv1d` layer (single in/out channel). -/
structure MaskConv1dCfg where
  w : List Int
  stride : Nat
  pad : Nat
  dilate : Nat
  useMask : Bool

/-- `MaskConv1d.__call__` (jasper.py lines 339-353) on one batch item and channel.
The first component is the caller's input buffer after the call: `x *= mask` is an
in-place multiplication, so an ndarray argument is mutated to its masked value.
The second and third components are the returned tensor and valid length. -/
def maskConv1dCall (cfg : MaskConv1dCfg) (x : List Int) (xLen : Int) :
    List Int × List Int × Int :=
  if cfg.useMask then
    (maskSeq xLen x,
      conv1d cfg.w (maskSeq xLen x) cfg.stride cfg.pad cfg.dilate,
      maskConvNewLen cfg.w.length cfg.stride cfg.pad cfg.dilate xLen)
  else
    (x, conv1d cfg.w x cfg.stride cfg.pad cfg.dilate, xLen)

theorem maskSeq_getD_of_le (xLen : Int) (x : List Int) (t : Nat) (h : xLen ≤ (t : Int)) :
    (maskSeq xLen x).getD t 0 = 0 := by
  rcases Nat.lt_or_ge t x.length with hlt | hge
  · have hlen : t < (maskSeq xLen x).length := by simpa [maskSeq] using hlt
    rw [List.getD_eq_getElem?_getD, List.getElem?_eq_getElem hlen]
    simp only [maskSeq, List.getElem_mapIdx, Option.getD_some]
    rw [if_neg (by omega)]
  · have hlen : (maskSeq xLen x).length ≤ t := by simpa [maskSeq] using hge
    rw [List.getD_eq_getElem?_getD, List.getElem?_eq_none hlen]
    rfl

theorem maskSeq_maskSeq (xLen : Int) (x : List Int) :
    maskSeq xLen (maskSeq xLen x) = maskSeq xLen x := by
  apply List.ext_getElem
  · simp [maskSeq]
  · intro n h1 h2
    simp only [maskSeq, List.getElem_mapIdx]
    split <;> simp

/-! ### Dense-residual unit (`JasperUnit` in jasper.py) -/

/-- A tensor of the unit-level embedding: one channel along the time axis. -/
abbrev Tensor := List Int

/-- Elementwise addition of two tensors. -/
def tensorAdd (a b : Tensor) : Tensor := List.zipWith (· + ·) a b

/-- `F.stack` along a new axis followed by `F.sum` across it: the elementwise sum
of a nonempty list of tensors. -/
def sumTensors : List Tensor → Tensor
  | [] => []
  | t :: ts => ts.foldl tensorAdd t

/-- The rectifier activation `F.relu`. -/
def reluT (t : Tensor) : Tensor := t.map fun v => max v 0

/-- Modelled from the spec: `DualPathParallelConcurent` (imported from `.common`,
which is not under src/) applies its i-th branch block to the i-th
(tensor, length) pair of the two input lists and returns the lists of results
(spec section 4.5: every history entry goes through its own 1x1 projection). -/
def dualPathParallelConcurent (blocks : List (Tensor → Int → Tensor × Int))
    (ys : List Tensor) (yLens : List Int) : List Tensor × List Int :=
  let outs := (blocks.zip (ys.zip yLens)).map fun bz => bz.1 bz.2.1 bz.2.2
  (outs.map Prod.fst, outs.map Prod.snd)

/-- Parameters of one `JasperUnit` in dense-residual mode: the per-history-entry
1x1 projection blocks (`identity_block`, one per accumulated input width) and the
body (the sequential stack of `repeat` convolution blocks). -/
structure DrUnit where
  idBlocks : List (Tensor → Int → Tensor × Int)
  body : Tensor → Int → Tensor × Int

/-- The second component threaded through dense-residual units:
`x_len` is either a plain length (before the first unit) or the tuple
`(x_len, y, y_len)` produced by a previous unit. -/
inductive DrCarry where
  | plain (xLen : Int)
  | dense (xLen : Int) (y : List Tensor) (yLen : List Int)

/-- `JasperUnit.__call__` (jasper.py lines 708-728) with `use_dr = True`:
unpack the carry, append the current input and its length to the history, sum the
per-entry 1x1 projections of the whole history into the shortcut, run the body,
add the shortcut, apply the rectifier (dropout is an inference no-op), and thread
`(x_len, y, y_len)` forward. -/
def jasperUnitCallDR (u : DrUnit) (x : Tensor) (c : DrCarry) : Tensor × DrCarry :=
  let s : Int × List Tensor × List Int :=
    match c with
    | .plain l => (l, [x], [l])
    | .dense l ys ls => (l, ys ++ [x], ls ++ [l])
  let identity := sumTensors (dualPathParallelConcurent u.idBlocks s.2.1 s.2.2).1
  let b := u.body x s.1
  (reluT (tensorAdd b.1 identity), .dense b.2 s.2.1 s.2.2)

/-- A sequence of dense-residual units applied in order, starting from a plain
length carry (the output of the init block). -/
def runDenseUnits (units : List DrUnit) (x : Tensor) (xLen : Int) : Tensor × DrCarry :=
  units.foldl (fun st u => jasperUnitCallDR u st.1 st.2) (x, .plain xLen)

/-! ### Mel-spectrogram extractor (`NemoMelSpecExtractor` in jasper.py) -/

/-- Failure modes of `NemoMelSpecExtractor.__call__`: the assertion
`yi.shape[1] != 1` (line 183), and the indexing `ys[0]` (line 193), which fails
on an empty batch. -/
inductive ExtractError where
  | invalidAudio
  | indexError
deriving DecidableEq

instance {ε α : Type} [DecidableEq ε] [DecidableEq α] : DecidableEq (Except ε α) :=
  fun x y =>
    match x, y with
    | .error a, .error b => decidable_of_iff (a = b) (by simp)
    | .error _, .ok _ => .isFalse fun h => Except.noConfusion h
    | .ok _, .error _ => .isFalse fun h => Except.noConfusion h
    | .ok a, .ok b => decidable_of_iff (a = b) (by simp)

/-- A per-item log-mel matrix: rows are mel channels, columns are time frames. -/
abbrev Mat := List (List Int)

/-- `yi.shape[1]`: the number of time frames of an item's matrix. -/
def matCols (m : Mat) : Nat := (m.headD []).length

/-- The per-item valid length (line 170): `np.ceil(float(len(xi)) / hop_length)`,
the ceiling of the exact division rendered in integer arithmetic. -/
def melValidLen (hopLength wavLen : Nat) : Nat := (wavLen + hopLength - 1) / hopLength

/-- One item of the per-item loop of `NemoMelSpecExtractor.__call__` (lines
169-191). The numeric chain (dither, pre-emphasis, STFT, squared magnitude, mel
projection, log, mean/variance normalization) is the external numeric pipeline of
spec section 4.1, so an item is given as its waveform length together with the
computed normalized matrix; the repository's own logic records
`ceil(len/hop_length)` and asserts `yi.shape[1] != 1`. -/
def extractItem (hopLength : Nat) (item : Nat × Mat) : Except ExtractError (Nat × Mat) :=
  if matCols item.2 = 1 then .error .invalidAudio
  else .ok (melValidLen hopLength item.1, item.2)

/-- `self.pad_align` (line 137). -/
def padAlign : Nat := 16

/-- The alignment padding (lines 200-202): pad the time axis to the next multiple
of 16 when it is not already one. -/
def padTo16 (n : Nat) : Nat := if n % padAlign = 0 then n else n + (padAlign - n % padAlign)

/-- `max([yj.shape[-1] for yj in ys])` (line 194). -/
def maxCols (ys : List (Nat × Mat)) : Nat := (ys.map fun it => matCols it.2).foldl max 0

/-- One output row of the batched tensor (lines 195-198): position `t` holds the
item's value when `t` is below the item's valid length, and zero otherwise. -/
def batchRow (total xLen : Nat) (row : List Int) : List Int :=
  (List.range total).map fun t => if t < xLen then row.getD t 0 else 0

/-- The batched tensor (lines 193-202): for every item, `channels` rows of
`total` columns, copying `yi[:, :x_len_i]` and zero elsewhere. -/
def batchStage (channels total : Nat) (ys : List (Nat × Mat)) : List Mat :=
  ys.map fun it => (List.range channels).map fun c => batchRow total it.1 (it.2.getD c [])

/-- The per-item `for` loop of `NemoMelSpecExtractor.__call__`: items are
processed in order and the first failing assertion aborts the whole call. -/
def extractLoop (hopLength : Nat) : List (Nat × Mat) → Except ExtractError (List (Nat × Mat))
  | [] => .ok []
  | it :: rest =>
    match extractItem hopLength it with
    | .error e => .error e
    | .ok y =>
      match extractLoop hopLength rest with
      | .error e => .error e
      | .ok ys => .ok (y :: ys)

/-- `NemoMelSpecExtractor.__call__` (jasper.py lines 162-204): run the per-item
loop (first failing assertion aborts the call), read the channel count off the
first item (`ys[0]`, an IndexError on an empty batch), pad the time axis to the
batch maximum and then to a multiple of 16, and return the batched tensor with
the vector of valid lengths. -/
def nemoMelSpecExtractorCall (hopLength : Nat) (items : List (Nat × Mat)) :
    Except ExtractError (List Mat × List Nat) :=
  match extractLoop hopLength items with
  | .error e => .error e
  | .ok [] => .error .indexError
  | .ok (y0 :: rest) =>
    .ok (batchStage y0.2.length (padTo16 (maxCols (y0 :: rest))) (y0 :: rest),
      (y0 :: rest).map Prod.fst)

/-- The batching construction exactly as the claim words it: right-pad each
item's full matrix with zeros to the batch's maximum frame count, then pad
further to the next multiple of 16 frames. -/
def claimBatch (ys : List (Nat × Mat)) : List Mat :=
  ys.map fun it => it.2.map fun row =>
    (List.range (padTo16 (maxCols ys))).map fun t => row.getD t 0

/-- The length formula exactly as the spec states it (section 4.2): a true floor
over the rationals. -/
def specNewLen (ksize stride pad dilate : Nat) (len : Int) : Int :=
  ⌊((len : ℚ) + 2 * (pad : ℚ) - (dilate : ℚ) * ((ksize : ℚ) - 1) - 1) / (stride : ℚ)⌋ + 1

/-! ### Supporting lemmas -/

theorem mem_of_mem_ctcCollapseAux {blank : Int} {l : List Int} :
    ∀ {prev p : Int}, p ∈ ctcCollapseAux blank prev l → p ∈ l ∧ p ≠ blank := by
  induction l with
  | nil => intro prev p h; simp [ctcCollapseAux] at h
  | cons q ql ih =>
    intro prev p h
    rw [ctcCollapseAux] at h
    by_cases hc : (q ≠ prev ∨ prev = blank) ∧ q ≠ blank
    · rw [if_pos hc] at h
      rcases List.mem_cons.mp h with rfl | h'
      · exact ⟨List.mem_cons_self _ _, hc.2⟩
      · rcases ih h' with ⟨hm, hb⟩
        exact ⟨List.mem_cons_of_mem _ hm, hb⟩
    · rw [if_neg hc] at h
      rcases ih h with ⟨hm, hb⟩
      exact ⟨List.mem_cons_of_mem _ hm, hb⟩

theorem mapM_option_isSome {α β : Type} (f : α → Option β) (l : List α)
    (h : ∀ a ∈ l, (f a).isSome) : ∃ bs, l.mapM f = some bs := by
  induction l with
  | nil => exact ⟨[], rfl⟩
  | cons a l ih =>
    obtain ⟨b, hb⟩ := Option.isSome_iff_exists.mp (h a (List.mem_cons_self a l))
    obtain ⟨bs, hbs⟩ := ih fun x hx => h x (List.mem_cons_of_mem a hx)
    exact ⟨b :: bs, by rw [List.mapM_cons, hb, hbs]; rfl⟩

/-! ### Claim theorems -/

/-- C1: for every input sequence of integer label indices and every blank index
`b`, the CTC greedy decoder emits exactly the subsequence obtained by keeping
`previous = b` initially and, for each frame index `p` in order, appending `p`
iff `p != b` and (`p != previous` or `previous == b`), then setting
`previous = p`; concretely with `b = 5`: `[1,1,2,5,2,3]` decodes to `[1,2,2,3]`,
`[5,5,5]` to `[]`, `[1,5,1]` to `[1,1]`, and `[4,4,4,4]` to `[4]`. -/
theorem ctc_greedy_decoder_collapse :
    (∀ (b : Int) (frames : List Int), ctcCollapse b frames = ctcClaimCollapse b frames) ∧
    ctcCollapse 5 [1, 1, 2, 5, 2, 3] = [1, 2, 2, 3] ∧
    ctcCollapse 5 [5, 5, 5] = [] ∧
    ctcCollapse 5 [1, 5, 1] = [1, 1] ∧
    ctcCollapse 5 [4, 4, 4, 4] = [4] := by
  refine ⟨fun b frames => ?_, by decide, by decide, by decide, by decide⟩
  rw [ctcClaimCollapse, ctcClaimCollapse_aux, ctcCollapse]
  simp

/-- C10 counterexample: with vocabulary `['a']` (blank id 1), the index 2 lies
outside the vocabulary range, is emitted by the collapse, and its `labels_map`
lookup fails, so the decoder does not return a string. -/
theorem ctc_decoder_out_of_range_failure :
    ctcDecoder ['a'] [[2]] = none ∧
    (2 : Int) ≠ (['a'] : List Char).length ∧ ¬ ((2 : Int) < (['a'] : List Char).length) := by
  refine ⟨by decide, by decide, by decide⟩

/-- C10 amended: the CTC greedy decoder succeeds and yields a (possibly empty)
string for every batch of index sequences, including the empty sequence, whose
entries all lie in `[0, len(vocabulary)]` (real class ids or the blank, which is
fixed as `len(vocabulary)`); an emitted index outside the vocabulary range makes
the `labels_map` lookup fail instead. -/
theorem ctc_decoder_total_in_vocab_range (vocabulary : List Char)
    (predictions : List (List Int))
    (h : ∀ pred ∈ predictions, ∀ p ∈ pred, 0 ≤ p ∧ p ≤ (vocabulary.length : Int)) :
    (∃ texts, ctcDecoder vocabulary predictions = some texts) ∧
    ctcDecodeOne vocabulary [] = some "" := by
  constructor
  · apply mapM_option_isSome
    intro pred hpred
    rw [ctcDecodeOne, Option.isSome_map']
    have hall : ∀ p ∈ ctcCollapse (vocabulary.length : Int) pred,
        (labelsMap vocabulary p).isSome := by
      intro p hp
      obtain ⟨hmem, hne⟩ := mem_of_mem_ctcCollapseAux hp
      obtain ⟨h0, h1⟩ := h pred hpred p hmem
      rw [labelsMap, if_pos h0, Option.isSome_iff_exists]
      have hlt : p.toNat < vocabulary.length := by omega
      exact ⟨_, List.getElem?_eq_getElem hlt⟩
    obtain ⟨cs, hcs⟩ := mapM_option_isSome (labelsMap vocabulary) _ hall
    rw [hcs]
    rfl
  · rfl

theorem ctc_decoder_total_in_vocab_range_witness :
    (∃ texts, ctcDecoder ['a', 'b'] [[0, 2, 1], []] = some texts) ∧
    ctcDecodeOne ['a', 'b'] [] = some "" :=
  ctc_decoder_total_in_vocab_range ['a', 'b'] [[0, 2, 1], []] (by decide)

/-- C2: for a masked 1-D convolution with kernel `w.length`, stride, pad and
dilation, and a non-negative input valid length, the returned valid length is
`floor((len + 2*pad - dilation*(kernel-1) - 1) / stride) + 1` when masking is
enabled, and the unchanged input valid length when masking is disabled. -/
theorem mask_conv1d_length_formula (w : List Int) (s p d : Nat) (x : List Int)
    (xLen : Int) (hs : 1 ≤ s) (hlen : 0 ≤ xLen) :
    (maskConv1dCall ⟨w, s, p, d, true⟩ x xLen).2.2 = specNewLen w.length s p d xLen ∧
    (maskConv1dCall ⟨w, s, p, d, false⟩ x xLen).2.2 = xLen := by
  constructor
  · show maskConvNewLen w.length s p d xLen = specNewLen w.length s p d xLen
    rw [maskConvNewLen, specNewLen,
      Int.fdiv_eq_ediv _ (by exact_mod_cast Nat.zero_le s)]
    have hcast : ((xLen + 2 * (p : Int) - (d : Int) * ((w.length : Int) - 1) - 1 : Int) : ℚ)
        = (xLen : ℚ) + 2 * (p : ℚ) - (d : ℚ) * ((w.length : ℚ) - 1) - 1 := by
      push_cast; ring
    rw [← hcast, Rat.floor_intCast_div_natCast]
  · rfl

theorem mask_conv1d_length_formula_witness :
    (1 ≤ 2 ∧ (0 : Int) ≤ 10) ∧
    (maskConv1dCall ⟨[1, 2, 3], 2, 1, 1, true⟩ [3, 1, 4, 1, 5] 10).2.2
        = specNewLen 3 2 1 1 10 ∧
    (maskConv1dCall ⟨[1, 2, 3], 2, 1, 1, false⟩ [3, 1, 4, 1, 5] 10).2.2 = 10 :=
  ⟨⟨by decide, by decide⟩,
    (mask_conv1d_length_formula [1, 2, 3] 2 1 1 [3, 1, 4, 1, 5] 10 (by decide) (by decide)).1,
    (mask_conv1d_length_formula [1, 2, 3] 2 1 1 [3, 1, 4, 1, 5] 10 (by decide) (by decide)).2⟩

/-- C8: applying the masking step (zeroing time positions at or beyond each
item's valid length) twice with the same valid lengths yields the same tensor as
applying it once, both per batch and per item row. -/
theorem masking_idempotent (xs : List (List Int)) (xLens : List Int) :
    maskBatch (maskBatch xs xLens) xLens = maskBatch xs xLens ∧
    ∀ (x : List Int) (xLen : Int), maskSeq xLen (maskSeq xLen x) = maskSeq xLen x := by
  refine ⟨?_, fun x xLen => maskSeq_maskSeq xLen x⟩
  induction xs generalizing xLens with
  | nil => simp [maskBatch]
  | cons x xs ih =>
    cases xLens with
    | nil => simp [maskBatch]
    | cons l ls =>
      simp only [maskBatch, List.zip_cons_cons, List.map_cons, maskSeq_maskSeq]
      have := ih ls
      simp only [maskBatch] at this
      rw [this]

theorem atPos_maskSeq_of_le (xLen : Int) (x : List Int) (j : Int) (h : xLen ≤ j) :
    atPos (maskSeq xLen x) j = 0 := by
  rw [atPos]
  split
  · have hj : xLen ≤ (j.toNat : Int) := by omega
    exact maskSeq_getD_of_le _ _ _ hj
  · rfl

theorem conv1dAt_maskSeq_zero (w x : List Int) (s p d : Nat) (xLen : Int) (t : Nat)
    (h : xLen + (p : Int) ≤ (t : Int) * (s : Int)) :
    conv1dAt w (maskSeq xLen x) s p d t = 0 := by
  rw [conv1dAt]
  apply List.sum_eq_zero
  intro z hz
  obtain ⟨i, hi, rfl⟩ := List.mem_map.mp hz
  rw [atPos_maskSeq_of_le, mul_zero]
  have hdi : (0 : Int) ≤ (d : Int) * (i : Int) := by positivity
  linarith

/-- C3 counterexample: a masked convolution with kernel 3, stride 1, pad 1,
dilation 1, all-ones weights, on a 2-frame item with valid length 1: the new
valid length is 1, the output has 2 time positions, and position 1 — at the new
valid length — holds 1, not 0, because the padded receptive field of an output
position beyond the new valid length can still cover real (unmasked) input. -/
theorem mask_conv_output_tail_nonzero :
    (maskConv1dCall ⟨[1, 1, 1], 1, 1, 1, true⟩ [1, 1] 1).2.2 = 1 ∧
    ((maskConv1dCall ⟨[1, 1, 1], 1, 1, 1, true⟩ [1, 1] 1).2.1).length = 2 ∧
    ((maskConv1dCall ⟨[1, 1, 1], 1, 1, 1, true⟩ [1, 1] 1).2.1).getD 1 0 = 1 := by
  decide

/-- C3 amended: a masked operation zeroes its own input at every time position at
or beyond the item's valid length (`x *= mask`), and an output position whose
whole receptive field lies at or beyond the valid data — `t*stride >= len + pad`
— is zero; output positions at or beyond the new valid length but with
`t*stride < len + pad` may be nonzero. -/
theorem mask_conv_masking_zeroes (cfg : MaskConv1dCfg) (x : List Int) (xLen : Int)
    (t : Nat) (hm : cfg.useMask = true) :
    (xLen ≤ (t : Int) → ((maskConv1dCall cfg x xLen).1).getD t 0 = 0) ∧
    (xLen + (cfg.pad : Int) ≤ (t : Int) * (cfg.stride : Int) →
      ((maskConv1dCall cfg x xLen).2.1).getD t 0 = 0) := by
  rcases cfg with ⟨w, s, p, d, um⟩
  cases um with
  | false => exact (Bool.false_ne_true hm).elim
  | true =>
    rw [maskConv1dCall]
    refine ⟨fun ht => maskSeq_getD_of_le _ _ _ ht, fun ht => ?_⟩
    show (conv1d w (maskSeq xLen x) s p d).getD t 0 = 0
    rcases Nat.lt_or_ge t (conv1d w (maskSeq xLen x) s p d).length with hlt | hge
    · rw [List.getD_eq_getElem?_getD, List.getElem?_eq_getElem hlt]
      have hrange : t < (List.range
          (maskConvNewLen w.length s p d (maskSeq xLen x).length).toNat).length := by
        simpa [conv1d] using hlt
      simp only [conv1d, List.getElem_map, List.getElem_range, Option.getD_some]
      exact conv1dAt_maskSeq_zero w x s p d xLen _ (by simpa using ht)
    · rw [List.getD_eq_getElem?_getD, List.getElem?_eq_none hge]
      rfl

theorem mask_conv_masking_zeroes_witness :
    ((maskConv1dCall ⟨[1, 1], 1, 0, 1, true⟩ [1, 1, 1] 2).1).getD 2 0 = 0 ∧
    ((maskConv1dCall ⟨[1, 1], 1, 0, 1, true⟩ [1, 1, 1] 2).2.1).getD 2 0 = 0 :=
  ⟨(mask_conv_masking_zeroes ⟨[1, 1], 1, 0, 1, true⟩ [1, 1, 1] 2 2 rfl).1 (by decide),
    (mask_conv_masking_zeroes ⟨[1, 1], 1, 0, 1, true⟩ [1, 1, 1] 2 2 rfl).2 (by decide)⟩

/-- C9 counterexample: `x *= mask` mutates an ndarray argument in place, so after
a masked call with valid length 1 on the buffer `[7, 7]` the caller's buffer is
`[7, 0]`, not the original `[7, 7]`: the call is not free of side effects on its
input tensor. -/
theorem mask_conv_input_buffer_mutated :
    (maskConv1dCall ⟨[1], 1, 0, 1, true⟩ [7, 7] 1).1 = [7, 0] ∧
    ([7, 0] : List Int) ≠ [7, 7] := by decide

/-- C9 amended: besides the returned tensor and length, the only effect of
`MaskConv1d.__call__` is that, when masking is enabled and the input tensor is a
mutable array, the masking step zeroes the caller's input tensor in place at
positions at or beyond the valid length (with masking disabled the input is
untouched); the input length vector is never mutated, and a repeated call on the
mutated buffer with the same parameters and length leaves the buffer unchanged
and returns the same (tensor, length) result. -/
theorem mask_conv_frame_conditions (cfg : MaskConv1dCfg) (x : List Int) (xLen : Int) :
    ((maskConv1dCall cfg x xLen).1 = if cfg.useMask then maskSeq xLen x else x) ∧
    (maskConv1dCall cfg (maskConv1dCall cfg x xLen).1 xLen).1
        = (maskConv1dCall cfg x xLen).1 ∧
    (maskConv1dCall cfg (maskConv1dCall cfg x xLen).1 xLen).2
        = (maskConv1dCall cfg x xLen).2 := by
  rcases cfg with ⟨w, s, p, d, um⟩
  cases um <;> simp [maskConv1dCall, maskSeq_maskSeq]

theorem runDenseUnits_take_succ (units : List DrUnit) (x : Tensor) (xLen : Int)
    (k : Nat) (hk : k < units.length) :
    runDenseUnits (units.take (k + 1)) x xLen
      = jasperUnitCallDR (units.get ⟨k, hk⟩) (runDenseUnits (units.take k) x xLen).1
          (runDenseUnits (units.take k) x xLen).2 := by
  rw [runDenseUnits, runDenseUnits, List.take_succ, List.foldl_append,
    List.getElem?_eq_getElem hk]
  rfl

/-- C4: in dense-residual mode, starting from a plain length carry, after unit
`k` (for any `1 <= k <= n`, with unit `i` holding `i` per-entry projection
blocks, as `Jasper.__init__` builds them) the threaded state is the tuple
(length, history of tensors, history of lengths) with exactly `k` entries in
each history, and the list of 1x1-projected entries stacked and summed into unit
`k`'s shortcut has exactly `k` elements, one per history element. -/
theorem dense_residual_accumulation (units : List DrUnit) (x : Tensor) (xLen : Int)
    (k : Nat) (hk1 : 1 ≤ k) (hk2 : k ≤ units.length)
    (hblocks : ∀ i (h : i < units.length), (units.get ⟨i, h⟩).idBlocks.length = i + 1) :
    ∃ l ys ls, (runDenseUnits (units.take k) x xLen).2 = DrCarry.dense l ys ls ∧
      ys.length = k ∧ ls.length = k ∧
      ((dualPathParallelConcurent
          (units.get ⟨k - 1, by omega⟩).idBlocks ys ls).1).length = k := by
  have shape : ∀ (j : Nat), 1 ≤ j → j ≤ units.length →
      ∃ l ys ls, (runDenseUnits (units.take j) x xLen).2 = DrCarry.dense l ys ls ∧
        ys.length = j ∧ ls.length = j := by
    intro j
    induction j with
    | zero => intro h; omega
    | succ j ih =>
      intro _ hle
      rcases Nat.eq_zero_or_pos j with rfl | hj
      · rw [runDenseUnits_take_succ units x xLen 0 (by omega)]
        refine ⟨_, _, _, rfl, rfl, rfl⟩
      · obtain ⟨l, ys, ls, hc, hys, hls⟩ := ih hj (by omega)
        rw [runDenseUnits_take_succ units x xLen j (by omega), hc]
        exact ⟨_, _, _, rfl, by simp [jasperUnitCallDR, hys], by simp [jasperUnitCallDR, hls]⟩
  obtain ⟨l, ys, ls, hc, hys, hls⟩ := shape k hk1 hk2
  refine ⟨l, ys, ls, hc, hys, hls, ?_⟩
  show (((units.get ⟨k - 1, by omega⟩).idBlocks.zip (ys.zip ls)).map
      (fun bz => bz.1 bz.2.1 bz.2.2) |>.map Prod.fst).length = k
  rw [List.length_map, List.length_map, List.length_zip, List.length_zip,
    hblocks (k - 1) (by omega), hys, hls]
  omega

/-- A two-unit dense-residual stack with identity body and projection blocks,
shaped as `Jasper.__init__` shapes it: unit `i` holds `i` projection blocks. -/
def drUnitsExample : List DrUnit :=
  [⟨[fun t l => (t, l)], fun t l => (t, l)⟩,
   ⟨[fun t l => (t, l), fun t l => (t, l)], fun t l => (t, l)⟩]

theorem dense_residual_accumulation_witness :
    ∃ l ys ls, (runDenseUnits (drUnitsExample.take 2) [1] 3).2 = DrCarry.dense l ys ls ∧
      ys.length = 2 ∧ ls.length = 2 ∧
      ((dualPathParallelConcurent
          (drUnitsExample.get ⟨2 - 1, by decide⟩).idBlocks ys ls).1).length = 2 :=
  dense_residual_accumulation drUnitsExample [1] 3 2 (by omega)
    (by
      have hlen : drUnitsExample.length = 2 := rfl
      omega)
    (by
      intro i h
      rcases i with _ | _ | n
      · rfl
      · rfl
      · have hlen : drUnitsExample.length = 2 := rfl
        omega)

theorem extractLoop_ok_of (hop : Nat) (items : List (Nat × Mat))
    (h : ∀ it ∈ items, matCols it.2 ≠ 1) :
    extractLoop hop items = .ok (items.map fun it => (melValidLen hop it.1, it.2)) := by
  induction items with
  | nil => rfl
  | cons it rest ih =>
    rw [extractLoop, extractItem, if_neg (h it (List.mem_cons_self it rest)),
      ih fun a ha => h a (List.mem_cons_of_mem _ ha)]
    rfl

theorem extractLoop_ok_inv (hop : Nat) (items : List (Nat × Mat))
    (ys : List (Nat × Mat)) (h : extractLoop hop items = .ok ys) :
    ys = (items.map fun it => (melValidLen hop it.1, it.2)) ∧
      ∀ it ∈ items, matCols it.2 ≠ 1 := by
  induction items generalizing ys with
  | nil =>
    refine ⟨?_, by simp⟩
    rw [extractLoop] at h
    simpa using (Except.ok.inj h).symm
  | cons it rest ih =>
    rw [extractLoop, extractItem] at h
    by_cases hc : matCols it.2 = 1
    · rw [if_pos hc] at h
      exact Except.noConfusion h
    · rw [if_neg hc] at h
      cases hrest : extractLoop hop rest with
      | error e => rw [hrest] at h; exact Except.noConfusion h
      | ok ys' =>
        rw [hrest] at h
        obtain ⟨hmap, hall⟩ := ih ys' hrest
        refine ⟨?_, ?_⟩
        · rw [← Except.ok.inj h, hmap]
          rfl
        · intro a ha
          rcases List.mem_cons.mp ha with rfl | ha'
          · exact hc
          · exact hall a ha'

theorem extractLoop_error_iff (hop : Nat) (items : List (Nat × Mat)) :
    ∀ e, extractLoop hop items = .error e
      ↔ (e = .invalidAudio ∧ ∃ it ∈ items, matCols it.2 = 1) := by
  induction items with
  | nil =>
    intro e
    constructor
    · intro h; exact Except.noConfusion h
    · rintro ⟨-, it, hmem, -⟩; simp at hmem
  | cons it rest ih =>
    intro e
    rw [extractLoop, extractItem]
    by_cases hc : matCols it.2 = 1
    · rw [if_pos hc]
      constructor
      · intro h
        exact ⟨(Except.error.inj h).symm, it, List.mem_cons_self it rest, hc⟩
      · rintro ⟨rfl, -⟩; rfl
    · rw [if_neg hc]
      cases hrest : extractLoop hop rest with
      | error e1 =>
        obtain ⟨he1, hex⟩ := (ih e1).mp hrest
        constructor
        · intro h
          refine ⟨(Except.error.inj h).symm.trans he1, ?_⟩
          obtain ⟨a, ha, hone⟩ := hex
          exact ⟨a, List.mem_cons_of_mem _ ha, hone⟩
        · rintro ⟨rfl, -⟩
          rw [he1]
      | ok ys =>
        constructor
        · intro h; exact Except.noConfusion h
        · rintro ⟨rfl, a, ha, hone⟩
          rcases List.mem_cons.mp ha with rfl | ha'
          · exact absurd hone hc
          · have := (ih ExtractError.invalidAudio).mpr ⟨rfl, a, ha', hone⟩
            rw [this] at hrest
            exact Except.noConfusion hrest

theorem nemoCall_of_loop_ok (hop : Nat) (items : List (Nat × Mat))
    (y0 : Nat × Mat) (rest : List (Nat × Mat))
    (h : extractLoop hop items = .ok (y0 :: rest)) :
    nemoMelSpecExtractorCall hop items
      = .ok (batchStage y0.2.length (padTo16 (maxCols (y0 :: rest))) (y0 :: rest),
        (y0 :: rest).map Prod.fst) := by
  rw [nemoMelSpecExtractorCall, h]

theorem nemoCall_of_loop_error (hop : Nat) (items : List (Nat × Mat))
    (e : ExtractError) (h : extractLoop hop items = .error e) :
    nemoMelSpecExtractorCall hop items = .error e := by
  rw [nemoMelSpecExtractorCall, h]

theorem melValidLen_eq_ceil (hop L : Nat) (hhop : 1 ≤ hop) :
    (melValidLen hop L : Int) = ⌈(L : ℚ) / (hop : ℚ)⌉ := by
  have hp : (0 : ℚ) < (hop : ℚ) := by exact_mod_cast hhop
  symm
  rw [melValidLen, Int.ceil_eq_iff]
  have hqr := Nat.div_add_mod (L + hop - 1) hop
  have hr : (L + hop - 1) % hop < hop := Nat.mod_lt _ (by omega)
  set q := (L + hop - 1) / hop with hq
  set r := (L + hop - 1) % hop with hrdef
  set m := hop * q with hm
  have hL1 : L ≤ m := by omega
  have hL2 : m < L + hop := by omega
  have hmq : (m : ℚ) = (hop : ℚ) * (q : ℚ) := by rw [hm]; push_cast; ring
  have hc1 : (L : ℚ) ≤ (hop : ℚ) * (q : ℚ) := by
    rw [← hmq]; exact_mod_cast hL1
  have hc2 : (hop : ℚ) * (q : ℚ) < (L : ℚ) + (hop : ℚ) := by
    rw [← hmq]; exact_mod_cast hL2
  constructor
  · push_cast
    rw [lt_div_iff₀ hp]
    nlinarith
  · push_cast
    rw [div_le_iff₀ hp]
    nlinarith

theorem padTo16_dvd (n : Nat) : 16 ∣ padTo16 n := by
  simp only [padTo16, padAlign]
  split <;> omega

theorem batchRow_getD (total xLen : Nat) (row : List Int) (t : Nat) :
    (batchRow total xLen row).getD t 0
      = if t < total then (if t < xLen then row.getD t 0 else 0) else 0 := by
  by_cases ht : t < total
  · rw [if_pos ht, List.getD_eq_getElem?_getD, batchRow, List.getElem?_map,
      List.getElem?_range ht]
    rfl
  · rw [if_neg ht, List.getD_eq_getElem?_getD, List.getElem?_eq_none]
    · rfl
    · simpa [batchRow] using Nat.le_of_not_lt ht

theorem batchStage_getD (channels total : Nat) (ys : List (Nat × Mat))
    (i c t : Nat) (hi : i < ys.length) (hc : c < channels) :
    (((batchStage channels total ys).getD i []).getD c []).getD t 0
      = if t < total then
          (if t < (ys.get ⟨i, hi⟩).1 then
            (((ys.get ⟨i, hi⟩).2).getD c []).getD t 0 else 0)
        else 0 := by
  have h1 : (batchStage channels total ys).getD i []
      = (List.range channels).map fun ch =>
          batchRow total (ys.get ⟨i, hi⟩).1 (((ys.get ⟨i, hi⟩).2).getD ch []) := by
    rw [List.getD_eq_getElem?_getD, batchStage, List.getElem?_map,
      List.getElem?_eq_getElem hi]
    rfl
  have h2 : ((List.range channels).map fun ch =>
      batchRow total (ys.get ⟨i, hi⟩).1 (((ys.get ⟨i, hi⟩).2).getD ch [])).getD c []
      = batchRow total (ys.get ⟨i, hi⟩).1 (((ys.get ⟨i, hi⟩).2).getD c []) := by
    rw [List.getD_eq_getElem?_getD, List.getElem?_map, List.getElem?_range hc]
    rfl
  rw [h1, h2, batchRow_getD]

/-- C5: for every accepted batch, the extractor reports for each item a valid
frame count equal to `ceil(waveform_length / hop_length)` (for `hop_length >= 1`
and any waveform length, in particular every `L >= 1`). -/
theorem mel_extractor_frame_count (hop : Nat) (items : List (Nat × Mat))
    (res : List Mat × List Nat) (hhop : 1 ≤ hop)
    (hres : nemoMelSpecExtractorCall hop items = .ok res) :
    res.2 = items.map (fun it => melValidLen hop it.1) ∧
    ∀ L : Nat, 1 ≤ L → (melValidLen hop L : Int) = ⌈(L : ℚ) / (hop : ℚ)⌉ := by
  refine ⟨?_, fun L _ => melValidLen_eq_ceil hop L hhop⟩
  cases hloop : extractLoop hop items with
  | error e =>
    rw [nemoCall_of_loop_error hop items e hloop] at hres
    exact Except.noConfusion hres
  | ok ys =>
    cases ys with
    | nil =>
      rw [nemoMelSpecExtractorCall, hloop] at hres
      exact Except.noConfusion hres
    | cons y0 rest =>
      rw [nemoCall_of_loop_ok hop items y0 rest hloop] at hres
      obtain ⟨hmap, -⟩ := extractLoop_ok_inv hop items _ hloop
      rw [← Except.ok.inj hres]
      show ((y0 :: rest).map Prod.fst) = _
      rw [hmap, List.map_map]
      rfl

theorem mel_extractor_frame_count_witness :
    (1 ≤ 2) ∧
    (([[[1, 2, 0, 0, 0, 0, 0, 0, 0, 0, 0, 0, 0, 0, 0, 0]]],
        [2]) : List Mat × List Nat).2
      = ([((3 : Nat), ([[1, 2]] : Mat))]).map (fun it => melValidLen 2 it.1) ∧
    (melValidLen 2 3 : Int) = ⌈((3 : Nat) : ℚ) / ((2 : Nat) : ℚ)⌉ :=
  ⟨by omega,
    (mel_extractor_frame_count 2 [(3, [[1, 2]])]
      ([[[1, 2, 0, 0, 0, 0, 0, 0, 0, 0, 0, 0, 0, 0, 0, 0]]], [2])
      (by omega) (by decide)).1,
    (mel_extractor_frame_count 2 [(3, [[1, 2]])]
      ([[[1, 2, 0, 0, 0, 0, 0, 0, 0, 0, 0, 0, 0, 0, 0, 0]]], [2])
      (by omega) (by decide)).2 3 (by omega)⟩

/-- C6 counterexample: on the empty batch no item has a one-frame spectrogram,
yet the call does not succeed: `ys[0]` fails (IndexError), which is not
`InvalidAudioError`, so "for all other inputs the batch call fully succeeds" is
false as stated. -/
theorem extract_empty_batch_failure :
    nemoMelSpecExtractorCall 160 [] = .error .indexError ∧
    ExtractError.indexError ≠ ExtractError.invalidAudio ∧
    ¬ ∃ it ∈ ([] : List (Nat × Mat)), matCols it.2 = 1 := by
  refine ⟨rfl, by decide, ?_⟩
  rintro ⟨it, hmem, -⟩
  simp at hmem

/-- C6 amended: for every nonempty batch, the extractor fails with
`InvalidAudioError` iff some item's computed spectrogram has exactly one time
frame, and fully succeeds iff no item does; the empty batch instead fails with
an IndexError at `ys[0]`. -/
theorem extract_invalid_audio_iff (hop : Nat) (items : List (Nat × Mat))
    (hne : items ≠ []) :
    (nemoMelSpecExtractorCall hop items = .error .invalidAudio
        ↔ ∃ it ∈ items, matCols it.2 = 1) ∧
    ((nemoMelSpecExtractorCall hop items).isOk = true
        ↔ ∀ it ∈ items, matCols it.2 ≠ 1) := by
  by_cases hex : ∃ it ∈ items, matCols it.2 = 1
  · have herr := (extractLoop_error_iff hop items ExtractError.invalidAudio).mpr ⟨rfl, hex⟩
    rw [nemoCall_of_loop_error hop items _ herr]
    refine ⟨⟨fun _ => hex, fun _ => rfl⟩, ⟨fun h => ?_, fun hall => ?_⟩⟩
    · exact absurd h (by rw [Except.isOk]; decide)
    · obtain ⟨it, hmem, hone⟩ := hex
      exact absurd hone (hall it hmem)
  · have hall : ∀ it ∈ items, matCols it.2 ≠ 1 := fun it hmem hone => hex ⟨it, hmem, hone⟩
    have hok := extractLoop_ok_of hop items hall
    cases items with
    | nil => exact absurd rfl hne
    | cons it0 rest0 =>
      rw [List.map_cons] at hok
      rw [nemoCall_of_loop_ok hop _ _ _ hok]
      exact ⟨⟨fun h => Except.noConfusion h, fun hx => absurd hx hex⟩,
        ⟨fun _ => hall, fun _ => rfl⟩⟩

theorem extract_invalid_audio_iff_witness :
    (nemoMelSpecExtractorCall 2 [(3, [[1, 2]])] = .error .invalidAudio
        ↔ ∃ it ∈ ([(3, [[1, 2]])] : List (Nat × Mat)), matCols it.2 = 1) ∧
    ((nemoMelSpecExtractorCall 2 [(3, [[1, 2]])]).isOk = true
        ↔ ∀ it ∈ ([(3, [[1, 2]])] : List (Nat × Mat)), matCols it.2 ≠ 1) :=
  extract_invalid_audio_iff 2 [(3, [[1, 2]])] (by decide)

/-- C7 counterexample: when a waveform length is an exact multiple of the hop
length the item's matrix has one more frame than its valid length, and the
batching stage copies only the first `x_len_i` columns: with hop 2 and the item
`(2, [[5, 7]])` the returned tensor row is `[5, 0, ...]`, while right-padding
the item's full matrix as the claim words it gives `[5, 7, 0, ...]`. -/
theorem extract_batch_not_full_matrix_pad :
    nemoMelSpecExtractorCall 2 [(2, [[5, 7]])]
      = .ok ([[[5, 0, 0, 0, 0, 0, 0, 0, 0, 0, 0, 0, 0, 0, 0, 0]]], [1]) ∧
    claimBatch [(2, [[5, 7]])]
      = [[[5, 7, 0, 0, 0, 0, 0, 0, 0, 0, 0, 0, 0, 0, 0, 0]]] ∧
    ([[[5, 0, 0, 0, 0, 0, 0, 0, 0, 0, 0, 0, 0, 0, 0, 0]]] : List Mat)
      ≠ [[[5, 7, 0, 0, 0, 0, 0, 0, 0, 0, 0, 0, 0, 0, 0, 0]]] :=
  ⟨by decide, by decide, by decide⟩

/-- C7 amended: for every batch accepted by the extractor, the time-axis size of
the returned batched tensor is the batch's maximum frame count padded to the
next multiple of 16 (hence a multiple of 16), and its entries are obtained by
right-padding each item's matrix truncated to the item's valid frame count:
positions below the item's valid length copy the item's matrix, and every later
position is zero. -/
theorem extract_batch_shape (hop : Nat) (items : List (Nat × Mat))
    (res : List Mat × List Nat) (hres : nemoMelSpecExtractorCall hop items = .ok res) :
    (∀ m ∈ res.1, ∀ row ∈ m,
        row.length = padTo16 ((items.map fun it => matCols it.2).foldl max 0)) ∧
    16 ∣ padTo16 ((items.map fun it => matCols it.2).foldl max 0) ∧
    (∀ i c t, (hi : i < items.length) → c < ((items.headD (0, [])).2).length →
      ((res.1.getD i []).getD c []).getD t 0
        = if t < melValidLen hop ((items.get ⟨i, hi⟩).1) ∧
              t < padTo16 ((items.map fun it => matCols it.2).foldl max 0)
          then (((items.get ⟨i, hi⟩).2).getD c []).getD t 0 else 0) := by
  cases hloop : extractLoop hop items with
  | error e =>
    rw [nemoCall_of_loop_error hop items e hloop] at hres
    exact Except.noConfusion hres
  | ok ys =>
    cases ys with
    | nil =>
      rw [nemoMelSpecExtractorCall, hloop] at hres
      exact Except.noConfusion hres
    | cons y0 rest =>
      rw [nemoCall_of_loop_ok hop items y0 rest hloop] at hres
      obtain ⟨hmap, -⟩ := extractLoop_ok_inv hop items _ hloop
      have hmax : maxCols (y0 :: rest) = (items.map fun it => matCols it.2).foldl max 0 := by
        rw [hmap, maxCols, List.map_map]
        rfl
      have hres1 : res.1 = batchStage y0.2.length (padTo16 (maxCols (y0 :: rest)))
          (y0 :: rest) := by
        rw [← Except.ok.inj hres]
      have hres1' : res.1 = batchStage y0.2.length
          (padTo16 ((items.map fun it => matCols it.2).foldl max 0)) (y0 :: rest) := by
        rw [hres1, hmax]
      refine ⟨?_, padTo16_dvd _, ?_⟩
      · intro m hm row hrow
        rw [hres1'] at hm
        obtain ⟨it, -, rfl⟩ := List.mem_map.mp hm
        obtain ⟨ch, -, rfl⟩ := List.mem_map.mp hrow
        simp [batchRow]
      · intro i c t hi hc
        have hilen : i < (y0 :: rest).length := by
          rw [hmap, List.length_map]; exact hi
        have hch : c < y0.2.length := by
          cases items with
          | nil => simp at hi
          | cons it0 items' =>
            have hy0 : y0 = (melValidLen hop it0.1, it0.2) := (List.cons.inj hmap).1
            rw [hy0]
            exact hc
        rw [hres1', batchStage_getD _ _ _ i c t hilen hch]
        have hget : (y0 :: rest).get ⟨i, hilen⟩
            = (melValidLen hop (items.get ⟨i, hi⟩).1, (items.get ⟨i, hi⟩).2) := by
          have h1 : (y0 :: rest)[i]?
              = (items.map fun it => (melValidLen hop it.1, it.2))[i]? := by
            rw [hmap]
          rw [List.getElem?_eq_getElem hilen, List.getElem?_map,
            List.getElem?_eq_getElem hi] at h1
          simpa [List.get_eq_getElem] using h1
        rw [hget]
        by_cases ht : t < padTo16 ((items.map fun it => matCols it.2).foldl max 0)
        · rw [if_pos ht]
          by_cases htl : t < melValidLen hop (items.get ⟨i, hi⟩).1
          · rw [if_pos htl, if_pos ⟨htl, ht⟩]
          · rw [if_neg htl, if_neg (fun hcon => htl hcon.1)]
        · rw [if_neg ht, if_neg (fun hcon => ht hcon.2)]

theorem extract_batch_shape_witness :
    ([[5, 0, 0, 0, 0, 0, 0, 0, 0, 0, 0, 0, 0, 0, 0, 0]] : Mat)
        ∈ ([[[5, 0, 0, 0, 0, 0, 0, 0, 0, 0, 0, 0, 0, 0, 0, 0]]] : List Mat) ∧
    ([5, 0, 0, 0, 0, 0, 0, 0, 0, 0, 0, 0, 0, 0, 0, 0] : List Int).length
        = padTo16 ((([(2, [[5, 7]])] : List (Nat × Mat)).map fun it => matCols it.2).foldl max 0) ∧
    16 ∣ padTo16 ((([(2, [[5, 7]])] : List (Nat × Mat)).map fun it => matCols it.2).foldl max 0) ∧
    (((([[[5, 0, 0, 0, 0, 0, 0, 0, 0, 0, 0, 0, 0, 0, 0, 0]]],
        [1]) : List Mat × List Nat).1.getD 0 []).getD 0 []).getD 1 0
      = if 1 < melValidLen 2 ((([(2, [[5, 7]])] : List (Nat × Mat)).get ⟨0, by decide⟩).1) ∧
            1 < padTo16 ((([(2, [[5, 7]])] : List (Nat × Mat)).map fun it => matCols it.2).foldl max 0)
        then ((((([(2, [[5, 7]])] : List (Nat × Mat)).get ⟨0, by decide⟩).2)).getD 0 []).getD 1 0
        else 0 := by
  have h := extract_batch_shape 2 [(2, [[5, 7]])]
    ([[[5, 0, 0, 0, 0, 0, 0, 0, 0, 0, 0, 0, 0, 0, 0, 0]]], [1]) (by decide)
  refine ⟨List.mem_singleton.mpr rfl, ?_, h.2.1, ?_⟩
  · exact h.1 _ (List.mem_singleton.mpr rfl) _ (List.mem_singleton.mpr rfl)
  · exact h.2.2 0 0 1 (by decide) (by decide)
